import Mathlib

/-!
A verification development for the floating-point R1CS gadget library in
`src/float.rs` (`FloatVar` with `verifier_input`, `new_variable`, `equal`, `neg`,
`add` and `mul`).

Embedding conventions:

* A `FloatVar` is embedded by the values its three wires hold: `FloatTriple`.
* Field elements are embedded as signed integer representatives.  Every value
  occurring in the gadgets is bounded in magnitude by `2 ^ 200`, far below half
  the modulus of any field used with this library (the tests use the BLS12-381
  scalar field, with a 255-bit modulus), so field addition, subtraction and
  multiplication never wrap and the `is_cmp_unchecked` comparison gadget agrees
  with integer comparison of the signed representatives.  The one place where
  the representative itself matters, the least-significant-bit trick of the
  rounding step, is embedded explicitly by `fieldLsb` below.
* The `integer_decode` of the `num` crate (an external dependency) is embedded
  at the level of IEEE-754 bit patterns, which is exactly what it computes.
* The big-integer hint computations (`to_biguint`, shifts, the normalization
  loops) are embedded as natural-number arithmetic; the loops are embedded by
  the equivalent closed form over the bit length `bitLen`.
-/

set_option maxRecDepth 100000

/-- Values held by the three wires of a `FloatVar`: `sign`, `exponent`,
`mantissa` (in this order, matching the struct in `src/float.rs`). -/
structure FloatTriple where
  sign : ℤ
  exponent : ℤ
  mantissa : ℤ
  deriving DecidableEq

/-- The biased-exponent field of an IEEE-754 double bit pattern:
`(bits >> 52) & 0x7ff` in `integer_decode`. -/
def decodeRawExponent (bits : ℕ) : ℕ := (bits >>> 52) % 2 ^ 11

/-- The mantissa returned by `integer_decode`: for a zero biased exponent the
fraction shifted left once, otherwise the fraction with the implicit leading
bit `0x10000000000000` set. -/
def decodeMantissa (bits : ℕ) : ℕ :=
  if decodeRawExponent bits = 0 then (bits % 2 ^ 52) <<< 1
  else bits % 2 ^ 52 + 2 ^ 52

/-- The exponent returned by `integer_decode`: the biased exponent minus
`1023 + 52`. -/
def decodeExponent (bits : ℕ) : ℤ := (decodeRawExponent bits : ℤ) - 1075

/-- The sign returned by `integer_decode`: `1` when the top bit is clear,
`-1` when it is set. -/
def decodeSign (bits : ℕ) : ℤ := if bits >>> 63 = 0 then 1 else -1

/-- Modelled from the spec: `signed_to_field` lives in `src/utils.rs`, which is
not among the provided sources.  Per the spec it encodes a signed integer as a
field element so that "negative shifted exponents map to field elements via a
signed-to-field convention (values above the field's midpoint represent
negatives)".  In the signed-representative embedding of field elements used
here, that encoding is the identity on the represented value. -/
def signed_to_field (n : ℤ) : ℤ := n

/-- The `match` on the decoded sign shared by `verifier_input` and
`new_variable`: defined for `1` and `-1` only (`unreachable!()`, respectively
`Err(SynthesisError::AssignmentMissing)`, otherwise). -/
def signToOne (s : ℤ) : Option ℤ :=
  if s = 1 then some 1 else if s = -1 then some (-1) else none

/-- The error type of `ark_relations`, restricted to the one variant the
allocation code can produce. -/
inductive SynthErr where
  | assignmentMissing
  deriving DecidableEq

namespace FloatVar

/-- `FloatVar::verifier_input`: the public three-field-element vector
`[sign, exponent, mantissa]` for a claimed result, `none` embedding the
`unreachable!()` branch of the sign match. -/
def verifier_input (bits : ℕ) : Option (List ℤ) :=
  (signToOne (decodeSign bits)).map fun sf =>
    [sf, signed_to_field (decodeExponent bits + 52), (decodeMantissa bits : ℤ)]

/-- The sign closure of `FloatVar::new_variable`: returns the field encoding of
the decoded sign, or `SynthesisError::AssignmentMissing` from the fallthrough
arm. -/
def allocSign (s : ℤ) : Except SynthErr ℤ :=
  if s = 1 then .ok 1 else if s = -1 then .ok (-1) else .error .assignmentMissing

/-- `FloatVar::new_variable`: allocates the three wires from a double's bit
pattern (the allocation mode does not change the bound values). -/
def new_variable (bits : ℕ) : Except SynthErr FloatTriple := do
  let s ← allocSign (decodeSign bits)
  pure ⟨s, signed_to_field (decodeExponent bits + 52), (decodeMantissa bits : ℤ)⟩

/-- The values bound by `FloatVar::new_variable` when allocation succeeds. -/
def allocValue (bits : ℕ) : FloatTriple :=
  ⟨decodeSign bits, signed_to_field (decodeExponent bits + 52), (decodeMantissa bits : ℤ)⟩

/-- `FloatVar::neg`: a new triple with the sign replaced by `0 - sign`, the
exponent and mantissa wires reused unchanged. -/
def neg (x : FloatTriple) : FloatTriple := ⟨0 - x.sign, x.exponent, x.mantissa⟩

/-- Constraints emitted by `FloatVar::equal`: one equality per attribute. -/
def equalConstraints (x y : FloatTriple) : List Prop :=
  [x.sign = y.sign, x.exponent = y.exponent, x.mantissa = y.mantissa]

/-- Constraints emitted by `FloatVar::neg`: the negated sign is a linear
combination of existing wires (`FpVar::zero() - sign`), so none. -/
def negConstraints (_ : FloatTriple) : List Prop := []

end FloatVar

/-- Fuel-carrying helper for `bitLen`. -/
def bitLenAux : ℕ → ℕ → ℕ
  | 0, _ => 0
  | fuel + 1, n => if n = 0 then 0 else bitLenAux fuel (n / 2) + 1

/-- Number of binary digits of `n` (`0` for `0`): the closed form of the
halving/doubling normalization loops of `FloatVar::add`. -/
def bitLen (n : ℕ) : ℕ := bitLenAux n n

/-- Bit `0` of the canonical representative of the field element whose signed
representative is `z`: for the (odd) modulus `p`, a nonnegative `z` is
represented by `z` itself and a negative `z` by `p + z`, which flips parity. -/
def fieldLsb (z : ℤ) : Bool :=
  if 0 ≤ z then z.natAbs % 2 = 1 else z.natAbs % 2 = 0

/-- The rounding increment of both gadgets (lines 211-213 and 251-253 of
`src/float.rs`): bit `0` of `q` when `r = u`, otherwise bit `0` of the field
element `2 * (u - r)`, then turned into `1` or `0` by the final select. -/
def roundInc (q u r : ℕ) : ℕ :=
  if fieldLsb (if (r : ℤ) = (u : ℤ) then (q : ℤ) else 2 * ((u : ℤ) - (r : ℤ))) then 1 else 0

namespace FloatVar

/-- The working exponent of `FloatVar::add`: the larger operand exponent,
selected by the unchecked less-than comparison `b` (lines 114-118). -/
def addExponent (x y : FloatTriple) : ℤ :=
  if x.exponent < y.exponent then y.exponent else x.exponent

/-- The exponent difference of `FloatVar::add`, computed as
`exponent + exponent - x.exponent - y.exponent` and clamped to `64` by a
comparison-and-select (lines 119-125). -/
def addDelta (x y : FloatTriple) : ℤ :=
  let delta := addExponent x y + addExponent x y - x.exponent - y.exponent
  if 64 < delta then 64 else delta

/-- The alignment pair `(exponent, delta)` of `FloatVar::add`. -/
def addAlign (x y : FloatTriple) : ℤ × ℤ := (addExponent x y, addDelta x y)

/-- The signed sum wire of `FloatVar::add` (lines 129-136): the signed
magnitude with the smaller exponent unchanged, the other scaled by
`2 ^ delta`. -/
def addSum (x y : FloatTriple) : ℤ :=
  let xx := x.sign * x.mantissa
  let yy := y.sign * y.mantissa
  let unchanged := if x.exponent < y.exponent then xx else yy
  let changed := (xx + yy - unchanged) * 2 ^ (addDelta x y).toNat
  changed + unchanged

/-- The output sign wire of `FloatVar::add` (lines 138-140). -/
def addSign (x y : FloatTriple) : ℤ := if addSum x y < 0 then -1 else 1

/-- The nonnegative magnitude wire `sum * sign` of `FloatVar::add`
(line 141). -/
def addAbs (x y : FloatTriple) : ℕ := (addSum x y * addSign x y).toNat

/-- The zero-branch exponent hint of `FloatVar::add` (lines 161-164).  Both
arms of the source `match` produce the signed value `-exponent`: when
`-exponent` is nonnegative its canonical field representative is small and
`to_i64` succeeds with it, otherwise `to_i64` overflows on the huge
representative and the fallback negates the representative of `exponent`. -/
def zeroExponentHint (exponent : ℤ) : ℤ :=
  (if 0 ≤ -exponent then -exponent else -exponent) - 1023

/-- The off-circuit hint `(q, e, r)` of `FloatVar::add` (lines 143-170): the
normalization loops bring `sum` into `[2 ^ (delta + 52), 2 ^ (delta + 53))` by
shifting by `bitLen sum - (delta + 53)` positions, the result is shifted right
by `delta` to give `q`, and `r` is the remainder against `q` shifted back
up. -/
def addHint (x y : FloatTriple) : ℕ × ℤ × ℕ :=
  let sum := addAbs x y
  let delta := (addDelta x y).toNat
  let qe : ℕ × ℤ :=
    if sum ≠ 0 then
      let de : ℤ := (bitLen sum : ℤ) - (delta + 53)
      let normalized : ℕ := if 0 ≤ de then sum >>> de.toNat else sum <<< (-de).toNat
      (normalized >>> delta, de)
    else (0, zeroExponentHint (addExponent x y))
  let dt : ℤ := delta + qe.2
  let r : ℕ := if dt ≤ 0 then 0 else sum - (qe.1 <<< dt.toNat)
  (qe.1, qe.2, r)

/-- The exponents `(m, n)` of the in-circuit shift identity of `FloatVar::add`
(lines 198-201): the nonnegative and negative parts of `delta + e`. -/
def addMN (x y : FloatTriple) (e : ℤ) : ℕ × ℕ :=
  (if 0 < addDelta x y + e then (addDelta x y + e).toNat else 0,
   if 0 < addDelta x y + e then 0 else (-(addDelta x y + e)).toNat)

/-- The halfway value `u` of `FloatVar::add` (lines 206-209):
`2 ^ (delta + e - 1)` when `delta + e` is positive, else `1`. -/
def addU (x y : FloatTriple) (e : ℤ) : ℕ :=
  if 0 < addDelta x y + e then 2 ^ (addDelta x y + e - 1).toNat else 1

/-- The constraints `FloatVar::add` places on the hint wires `q`, `e`, `r`
(lines 184-203): the disjunctive range check on `q` and the shift identity
`sum * 2 ^ n = q * 2 ^ m + r`.  All other wires of the gadget are forced, by
the constraints of the comparison, select, bit-decomposition and
exponentiation sub-gadgets, to the deterministic values embedded above. -/
def addConstraintsHold (x y : FloatTriple) (q : ℕ) (e : ℤ) (r : ℕ) : Prop :=
  (q = 0 ∨ (2 ^ 52 ≤ q ∧ q < 2 ^ 53)) ∧
  addAbs x y * 2 ^ (addMN x y e).2 = q * 2 ^ (addMN x y e).1 + r

/-- The output triple of `FloatVar::add` as a function of the hint wires
(lines 206-222): the rounding increment is added to `q`, and the exponent
correction `e` to the working exponent. -/
def addOutput (x y : FloatTriple) (q : ℕ) (e : ℤ) (r : ℕ) : FloatTriple :=
  ⟨addSign x y, addExponent x y + e, (q : ℤ) + (roundInc q (addU x y e) r : ℤ)⟩

/-- `FloatVar::add`: the output triple produced with the honestly computed
hints. -/
def add (x y : FloatTriple) : FloatTriple :=
  addOutput x y (addHint x y).1 (addHint x y).2.1 (addHint x y).2.2

/-- The raw mantissa product wire of `FloatVar::mul` (line 233). -/
def mulPRaw (x y : FloatTriple) : ℕ := (x.mantissa * y.mantissa).toNat

/-- Bit `105` of the product, `p.to_bits_le()?[105]` (line 234). -/
def mulB (x y : FloatTriple) : Bool := (mulPRaw x y).testBit 105

/-- The normalized 106-bit-frame product (line 236): `p` when bit `105` is
set, else `p` doubled. -/
def mulP (x y : FloatTriple) : ℕ := if mulB x y then mulPRaw x y else 2 * mulPRaw x y

/-- The combined exponent of `FloatVar::mul` (line 237). -/
def mulE (x y : FloatTriple) : ℤ :=
  x.exponent + y.exponent + (if mulB x y then 1 else 0)

/-- The off-circuit division hint of `FloatVar::mul` (line 240):
`q = p >> 53`. -/
def mulQ (x y : FloatTriple) : ℕ := mulP x y >>> 53

/-- The remainder wire of `FloatVar::mul` (line 248): `r = p - q * 2 ^ 53`. -/
def mulR (x y : FloatTriple) : ℕ := mulP x y - mulQ x y * 2 ^ 53

/-- `FloatVar::mul`: sign `x.sign * y.sign`, exponent `e`, mantissa `q` plus
the rounding increment against the constant halfway value `2 ^ 52`. -/
def mul (x y : FloatTriple) : FloatTriple :=
  ⟨x.sign * y.sign, mulE x y,
   (mulQ x y : ℤ) + (roundInc (mulQ x y) (2 ^ 52) (mulR x y) : ℤ)⟩

end FloatVar

/-- The shift amount that brings a positive integer `v` into the 53-bit window
`[2 ^ 52, 2 ^ 53)`: positive means shifting right (rounding), nonpositive means
the value is exact. -/
def rneShift (v : ℕ) : ℤ := (bitLen v : ℤ) - 53

/-- The truncated 53-bit significand of `v`. -/
def rneQ (v : ℕ) : ℕ :=
  if 0 < rneShift v then v >>> (rneShift v).toNat else v <<< (-rneShift v).toNat

/-- The discarded remainder of `v` below the 53-bit significand. -/
def rneR (v : ℕ) : ℕ :=
  if 0 < rneShift v then v % 2 ^ (rneShift v).toNat else 0

/-- Half of the discarded weight: the exact-tie threshold. -/
def rneHalf (v : ℕ) : ℕ :=
  if 0 < rneShift v then 2 ^ ((rneShift v).toNat - 1) else 1

/-- The round-to-nearest-even increment of IEEE-754: round up when the
remainder exceeds half of the discarded weight, and on an exact tie round to
the even neighbour (the parity bit of the truncated significand). -/
def rneInc (v : ℕ) : ℕ :=
  if rneR v = rneHalf v then rneQ v % 2 else if rneHalf v < rneR v then 1 else 0

/-- The rounded 53-bit significand of `v`, before any carry renormalization:
it lies in `[2 ^ 52, 2 ^ 53]`, the top value arising when rounding carries out
of the window. -/
def rneM (v : ℕ) : ℕ := rneQ v + rneInc v

/-- Round-to-nearest-even of the real number `v * 2 ^ (e - 52)` (`v` positive)
to a normalized (wire exponent, mantissa) pair, following the IEEE-754 default
rounding: when the rounded significand carries to `2 ^ 53` it renormalizes to
`2 ^ 52` with the exponent incremented. -/
def roundRNE (v : ℕ) (e : ℤ) : ℤ × ℤ :=
  if rneM v = 2 ^ 53 then (e + rneShift v + 1, 2 ^ 52)
  else (e + rneShift v, (rneM v : ℤ))

/-- The exact signed sum of the values of two triples, in units of
`2 ^ (min exponent - 52)`: the reference point for native double addition. -/
def addTrueSum (x y : FloatTriple) : ℤ :=
  let d0 := (x.exponent - y.exponent).natAbs
  if x.exponent ≤ y.exponent then x.sign * x.mantissa + y.sign * y.mantissa * 2 ^ d0
  else y.sign * y.mantissa + x.sign * x.mantissa * 2 ^ d0

/-- Native IEEE-754 double addition on decoded triples (round to nearest,
ties to even), for operands and results in the finite normal range: the
rounding of the exact sum, with the `+0` convention for a zero sum
(`integer_decode` of `+0.0` gives sign `1`, shifted wire exponent `-1023`,
mantissa `0`). -/
def fAdd (x y : FloatTriple) : FloatTriple :=
  let S := addTrueSum x y
  if S = 0 then ⟨1, -1023, 0⟩
  else
    let p := roundRNE S.natAbs (min x.exponent y.exponent)
    ⟨if S < 0 then -1 else 1, p.1, p.2⟩

/-- Native IEEE-754 double multiplication on decoded triples (round to
nearest, ties to even), for operands and results in the finite normal
range. -/
def fMul (x y : FloatTriple) : FloatTriple :=
  let p := roundRNE (x.mantissa * y.mantissa).natAbs (x.exponent + y.exponent - 52)
  ⟨x.sign * y.sign, p.1, p.2⟩

/-- The addition rounding-carry boundary: the rounded sum's significand
carries out of the 53-bit window (so native addition renormalizes, which
`FloatVar::add` does not). -/
def addCarry (x y : FloatTriple) : Prop :=
  addTrueSum x y ≠ 0 ∧ rneM (addTrueSum x y).natAbs = 2 ^ 53

/-- The multiplication rounding-carry boundary. -/
def mulCarry (x y : FloatTriple) : Prop :=
  rneM (x.mantissa * y.mantissa).natAbs = 2 ^ 53

/-- The wire values of a finite normal double: sign `1` or `-1` and a 53-bit
normalized mantissa. -/
def isNormal (t : FloatTriple) : Prop :=
  (t.sign = 1 ∨ t.sign = -1) ∧ 2 ^ 52 ≤ t.mantissa ∧ t.mantissa < 2 ^ 53

/-- Bit patterns of finite normal doubles: 64 bits, biased exponent neither
zero (zero/subnormal) nor all-ones (infinity/NaN). -/
def normalBits (bits : ℕ) : Prop :=
  bits < 2 ^ 64 ∧ decodeRawExponent bits ≠ 0 ∧ decodeRawExponent bits ≠ 2047

/-- Outcomes of a witness-assignment closure: a value, a recoverable
`SynthesisError`, or an unrecoverable abort of the whole process. -/
inductive HintOutcome where
  | ok (v : ℕ)
  | recoverable (e : SynthErr)
  | panicked
  deriving DecidableEq

/-- The closure assigning the quotient hint `q` in `FloatVar::add` (lines
172-175): `F::BigInt::try_from` succeeds exactly when the value fits the
fixed-width integer representation (`bound` limbs-worth of bits), and on
failure the closure panics instead of producing a `SynthesisError`. -/
def addQHintOutcome (bound v : ℕ) : HintOutcome :=
  if v < bound then .ok v else .panicked

/-- The closure assigning the remainder hint `r` in `FloatVar::add` (lines
177-180). -/
def addRHintOutcome (bound v : ℕ) : HintOutcome :=
  if v < bound then .ok v else .panicked

/-- The closure assigning the quotient hint `q` in `FloatVar::mul` (lines
242-245). -/
def mulQHintOutcome (bound v : ℕ) : HintOutcome :=
  if v < bound then .ok v else .panicked

instance (x y : FloatTriple) (q : ℕ) (e : ℤ) (r : ℕ) :
    Decidable (FloatVar.addConstraintsHold x y q e r) := by
  unfold FloatVar.addConstraintsHold; infer_instance

instance (x y : FloatTriple) : Decidable (addCarry x y) := by
  unfold addCarry; infer_instance

instance (x y : FloatTriple) : Decidable (mulCarry x y) := by
  unfold mulCarry; infer_instance

instance (t : FloatTriple) : Decidable (isNormal t) := by
  unfold isNormal; infer_instance

instance (bits : ℕ) : Decidable (normalBits bits) := by
  unfold normalBits; infer_instance

theorem bitLenAux_zero (fuel : ℕ) : bitLenAux fuel 0 = 0 := by
  cases fuel <;> simp [bitLenAux]

theorem bitLenAux_spec :
    ∀ fuel n : ℕ, n ≤ fuel → n ≠ 0 →
      2 ^ (bitLenAux fuel n - 1) ≤ n ∧ n < 2 ^ bitLenAux fuel n := by
  intro fuel
  induction fuel with
  | zero => intro n hle hne; omega
  | succ f ih =>
    intro n hle hne
    rw [bitLenAux, if_neg hne]
    by_cases h2 : n / 2 = 0
    · have hn1 : n = 1 := by omega
      subst hn1
      simp [bitLenAux_zero]
    · have hrec := ih (n / 2) (by omega) h2
      set L := bitLenAux f (n / 2) with hL
      have hL1 : 1 ≤ L := by
        rcases Nat.lt_or_ge L 1 with h | h
        · interval_cases L
          · simp at hrec; omega
        · exact h
      constructor
      · have : 2 ^ L = 2 ^ (L - 1) * 2 := by
          rw [← pow_succ]; congr 1; omega
        have h1 : 2 ^ (L - 1) ≤ n / 2 := hrec.1
        calc 2 ^ (L + 1 - 1) = 2 ^ (L - 1) * 2 := by rw [← pow_succ]; congr 1; omega
        _ ≤ (n / 2) * 2 := by omega
        _ ≤ n := by omega
      · have h2' : n / 2 < 2 ^ L := hrec.2
        have : n < 2 ^ L * 2 := by omega
        calc n < 2 ^ L * 2 := this
        _ = 2 ^ (L + 1) := by rw [pow_succ]

theorem bitLen_spec (n : ℕ) (h : n ≠ 0) :
    2 ^ (bitLen n - 1) ≤ n ∧ n < 2 ^ bitLen n :=
  bitLenAux_spec n n le_rfl h

theorem bitLen_lt (n : ℕ) : n < 2 ^ bitLen n := by
  by_cases h : n = 0
  · subst h; simp [bitLen, bitLenAux]
  · exact (bitLen_spec n h).2

theorem bitLen_pos (n : ℕ) (h : n ≠ 0) : 1 ≤ bitLen n := by
  by_contra hc
  have h0 : bitLen n = 0 := by omega
  have h2 := bitLen_lt n
  rw [h0, pow_zero] at h2
  omega

/-- Uniqueness: the bit length of a number in `[2 ^ k, 2 ^ (k + 1))` is
`k + 1`. -/
theorem bitLen_eq (n k : ℕ) (h1 : 2 ^ k ≤ n) (h2 : n < 2 ^ (k + 1)) :
    bitLen n = k + 1 := by
  have hne : n ≠ 0 := by
    have : 0 < 2 ^ k := Nat.pos_pow_of_pos k (by norm_num)
    omega
  obtain ⟨hs1, hs2⟩ := bitLen_spec n hne
  have hLpos := bitLen_pos n hne
  have hk_lt_L : k < bitLen n :=
    (Nat.pow_lt_pow_iff_right (by norm_num)).mp (lt_of_le_of_lt h1 hs2)
  have hL_le : bitLen n - 1 < k + 1 :=
    (Nat.pow_lt_pow_iff_right (by norm_num)).mp (lt_of_le_of_lt hs1 h2)
  omega

/-- The characterization of the rounding-increment gadget: on an exact tie it
is the parity bit of `q`, otherwise it is `1` exactly when `r` exceeds `u`
(the field parity trick on `2 * (u - r)`). -/
theorem roundInc_eq (q u r : ℕ) :
    roundInc q u r = if r = u then q % 2 else if u < r then 1 else 0 := by
  rcases eq_or_ne r u with hru | hru
  · subst hru
    simp only [roundInc, fieldLsb, eq_self_iff_true, if_true]
    rw [if_pos (Int.ofNat_nonneg q)]
    rcases Nat.mod_two_eq_zero_or_one q with h | h <;>
      simp [Int.natAbs_ofNat, h, Nat.mod_two_ne_one]
  · have hru' : (r : ℤ) ≠ (u : ℤ) := by exact_mod_cast hru
    have habs : (2 * ((u : ℤ) - r)).natAbs % 2 = 0 := by
      rw [Int.natAbs_mul]
      simp [Nat.mul_mod_right]
    rw [roundInc, fieldLsb]
    rw [if_neg hru', if_neg hru]
    rcases Nat.lt_or_ge u r with hlt | hge
    · have hneg : ¬ ((0:ℤ) ≤ 2 * ((u : ℤ) - r)) := by
        have : (u : ℤ) < r := by exact_mod_cast hlt
        omega
      rw [if_neg hneg, if_pos hlt]
      simp [habs]
    · have hpos : (0 : ℤ) ≤ 2 * ((u : ℤ) - r) := by
        have : (r : ℤ) ≤ u := by exact_mod_cast (by omega : r ≤ u)
        omega
      rw [if_pos hpos, if_neg (by omega : ¬ u < r)]
      simp [habs]

/-- Shifting a value with bit length `t + 53` right by `t` lands in the
53-bit window. -/
theorem shiftRight_window (v t : ℕ) (h1 : 2 ^ (t + 52) ≤ v) (h2 : v < 2 ^ (t + 53)) :
    2 ^ 52 ≤ v >>> t ∧ v >>> t < 2 ^ 53 := by
  rw [Nat.shiftRight_eq_div_pow]
  constructor
  · rw [Nat.le_div_iff_mul_le (Nat.pos_pow_of_pos t (by norm_num))]
    calc 2 ^ 52 * 2 ^ t = 2 ^ (t + 52) := by rw [← pow_add]; ring_nf
    _ ≤ v := h1
  · rw [Nat.div_lt_iff_lt_mul (Nat.pos_pow_of_pos t (by norm_num))]
    calc v < 2 ^ (t + 53) := h2
    _ = 2 ^ 53 * 2 ^ t := by rw [← pow_add]; ring_nf

theorem sub_shift_eq_mod (v t : ℕ) : v - (v >>> t) <<< t = v % 2 ^ t := by
  rw [Nat.shiftRight_eq_div_pow, Nat.shiftLeft_eq]
  have h := Nat.mod_add_div v (2 ^ t)
  rw [Nat.mul_comm] at h
  omega

theorem shiftRight_add_shift (v a b : ℕ) : v >>> a >>> b = v >>> (a + b) := by
  simp [Nat.shiftRight_eq_div_pow, Nat.div_div_eq_div_mul, pow_add]

/-- Left shift then a larger right shift is the remaining right shift. -/
theorem shiftLeft_shiftRight_of_le (v a b : ℕ) (h : a ≤ b) :
    (v <<< a) >>> b = v >>> (b - a) := by
  rw [Nat.shiftLeft_eq, Nat.shiftRight_eq_div_pow, Nat.shiftRight_eq_div_pow]
  have h2 : (2 : ℕ) ^ b = 2 ^ a * 2 ^ (b - a) := by rw [← pow_add]; congr 1; omega
  rw [h2, Nat.mul_comm v, ← Nat.div_div_eq_div_mul,
    Nat.mul_div_cancel_left _ (Nat.pos_pow_of_pos a (by norm_num))]

/-- Left shift then a smaller right shift is the remaining left shift. -/
theorem shiftLeft_shiftRight_of_ge (v a b : ℕ) (h : b ≤ a) :
    (v <<< a) >>> b = v <<< (a - b) := by
  rw [Nat.shiftLeft_eq, Nat.shiftRight_eq_div_pow, Nat.shiftLeft_eq]
  have h2 : (2 : ℕ) ^ a = 2 ^ (a - b) * 2 ^ b := by rw [← pow_add]; congr 1; omega
  rw [h2, ← Nat.mul_assoc,
    Nat.mul_div_cancel _ (Nat.pos_pow_of_pos b (by norm_num))]

namespace FloatVar

theorem addDelta_nonneg (x y : FloatTriple) : 0 ≤ addDelta x y := by
  simp only [addDelta, addExponent]
  split_ifs <;> omega

theorem addExponent_eq (x y : FloatTriple) :
    addExponent x y = max x.exponent y.exponent := by
  simp only [addExponent]
  split_ifs <;> omega

theorem addDelta_eq (x y : FloatTriple) :
    addDelta x y = min (((x.exponent - y.exponent).natAbs : ℤ)) 64 := by
  simp only [addDelta, addExponent]
  split_ifs <;> omega

theorem addAlign_eq (x y : FloatTriple) :
    addAlign x y =
      (max x.exponent y.exponent, min (((x.exponent - y.exponent).natAbs : ℤ)) 64) := by
  unfold addAlign
  rw [addExponent_eq, addDelta_eq]

theorem zeroExponentHint_eq (e : ℤ) : zeroExponentHint e = -e - 1023 := by
  simp only [zeroExponentHint]
  split_ifs <;> ring

theorem addSum_eq_trueSum (x y : FloatTriple)
    (h : (x.exponent - y.exponent).natAbs ≤ 64) :
    addSum x y = addTrueSum x y := by
  have hd : (addDelta x y).toNat = (x.exponent - y.exponent).natAbs := by
    rw [addDelta_eq]; omega
  simp only [addSum, addTrueSum, hd]
  rcases lt_trichotomy x.exponent y.exponent with hlt | heq | hgt
  · rw [if_pos hlt, if_pos (le_of_lt hlt)]
    ring
  · have h0 : (x.exponent - y.exponent).natAbs = 0 := by omega
    rw [if_neg (by omega), if_pos (by omega), h0]
    ring
  · rw [if_neg (by omega), if_neg (by omega)]
    ring

theorem addAbs_eq_natAbs (x y : FloatTriple) : addAbs x y = (addSum x y).natAbs := by
  simp only [addAbs, addSign]
  split_ifs with h
  · omega
  · omega

theorem addHint_zero (x y : FloatTriple) (h : addAbs x y = 0) :
    (addHint x y).1 = 0 ∧ (addHint x y).2.1 = -addExponent x y - 1023 ∧
      (addHint x y).2.2 = 0 := by
  simp only [addHint, h, zeroExponentHint_eq]
  norm_num

theorem addU_pos (x y : FloatTriple) (e : ℤ) : 0 < addU x y e := by
  simp only [addU]
  split_ifs
  · positivity
  · norm_num

theorem add_eq_zero_out (x y : FloatTriple) (h : addAbs x y = 0) :
    add x y = ⟨1, -1023, 0⟩ := by
  have hsum : addSum x y = 0 := by
    have := addAbs_eq_natAbs x y
    omega
  have hsign : addSign x y = 1 := by
    simp only [addSign]
    rw [if_neg (by omega)]
  obtain ⟨hq, he, hr⟩ := addHint_zero x y h
  have hu : 0 < addU x y (-addExponent x y - 1023) := addU_pos x y _
  simp only [add, addOutput, hq, he, hr, hsign, roundInc_eq]
  rw [if_neg (by omega), if_neg (by omega)]
  have harith : addExponent x y + (-addExponent x y - 1023) = -1023 := by ring
  rw [harith]
  norm_num

end FloatVar

/-- The normalization loops followed by the `delta`-shift compute exactly the
truncated 53-bit significand. -/
theorem normalized_shift_eq (sum δ : ℕ) :
    ((if 0 ≤ (bitLen sum : ℤ) - ((δ : ℤ) + 53)
      then sum >>> ((bitLen sum : ℤ) - ((δ : ℤ) + 53)).toNat
      else sum <<< (-((bitLen sum : ℤ) - ((δ : ℤ) + 53))).toNat) >>> δ) = rneQ sum := by
  simp only [rneQ, rneShift]
  split_ifs with h1 h2 h2
  · rw [shiftRight_add_shift]
    congr 1
    omega
  · have hδ0 : δ = 0 := by omega
    have hde : ((bitLen sum : ℤ) - ((δ : ℤ) + 53)).toNat = 0 := by omega
    have hnt : (-((bitLen sum : ℤ) - 53)).toNat = 0 := by omega
    rw [hde, hnt, hδ0]
    simp
  · have hk : (-((bitLen sum : ℤ) - ((δ : ℤ) + 53))).toNat ≤ δ := by omega
    rw [shiftLeft_shiftRight_of_le _ _ _ hk]
    congr 1
    omega
  · have hk : δ ≤ (-((bitLen sum : ℤ) - ((δ : ℤ) + 53))).toNat := by omega
    rw [shiftLeft_shiftRight_of_ge _ _ _ hk]
    congr 1
    omega

namespace FloatVar

theorem addHint_nonzero (x y : FloatTriple) (h : addAbs x y ≠ 0) :
    (addHint x y).1 = rneQ (addAbs x y) ∧
    (addHint x y).2.1 = rneShift (addAbs x y) - addDelta x y ∧
    (addHint x y).2.2 = rneR (addAbs x y) := by
  have hδ : ((addDelta x y).toNat : ℤ) = addDelta x y :=
    Int.toNat_of_nonneg (addDelta_nonneg x y)
  simp only [addHint, if_pos h]
  refine ⟨normalized_shift_eq _ _, by simp only [rneShift]; omega, ?_⟩
  rw [normalized_shift_eq]
  have hdt : ((addDelta x y).toNat : ℤ) + ((bitLen (addAbs x y) : ℤ) - ((addDelta x y).toNat + 53))
      = rneShift (addAbs x y) := by
    simp only [rneShift]; omega
  rw [hdt]
  simp only [rneR]
  split_ifs with h1 h2 h2
  · omega
  · omega
  · simp only [rneQ, if_pos h2]
    rw [sub_shift_eq_mod]
  · omega

theorem addU_eq_rneHalf (x y : FloatTriple) :
    addU x y (rneShift (addAbs x y) - addDelta x y) = rneHalf (addAbs x y) := by
  simp only [addU, rneHalf]
  have harith : addDelta x y + (rneShift (addAbs x y) - addDelta x y)
      = rneShift (addAbs x y) := by ring
  rw [harith]
  split_ifs with h1
  · congr 1
    omega
  · rfl

/-- For a nonzero magnitude, `FloatVar::add` produces the round-to-nearest-even
significand without post-rounding renormalization. -/
theorem add_eq_rne (x y : FloatTriple) (h : addAbs x y ≠ 0) :
    add x y = ⟨addSign x y,
      addExponent x y - addDelta x y + rneShift (addAbs x y),
      (rneM (addAbs x y) : ℤ)⟩ := by
  obtain ⟨hq, he, hr⟩ := addHint_nonzero x y h
  simp only [add, addOutput, hq, he, hr, addU_eq_rneHalf, roundInc_eq]
  simp only [FloatTriple.mk.injEq]
  refine ⟨by simp, by ring, ?_⟩
  simp only [rneM, rneInc]
  split_ifs <;> push_cast <;> ring
end FloatVar

theorem rneQ_window (v : ℕ) (h : v ≠ 0) : 2 ^ 52 ≤ rneQ v ∧ rneQ v < 2 ^ 53 := by
  obtain ⟨h1, h2⟩ := bitLen_spec v h
  have hpos := bitLen_pos v h
  simp only [rneQ, rneShift]
  split_ifs with ht
  · have hb : 54 ≤ bitLen v := by omega
    have hw := shiftRight_window v (bitLen v - 53)
      (by have e : bitLen v - 53 + 52 = bitLen v - 1 := by omega
          rw [e]; exact h1)
      (by have e : bitLen v - 53 + 53 = bitLen v := by omega
          rw [e]; exact h2)
    have harg : ((bitLen v : ℤ) - 53).toNat = bitLen v - 53 := by omega
    rw [harg]
    exact hw
  · have hb : bitLen v ≤ 53 := by omega
    have harg : (-((bitLen v : ℤ) - 53)).toNat = 53 - bitLen v := by omega
    rw [harg, Nat.shiftLeft_eq]
    constructor
    · calc (2:ℕ) ^ 52 = 2 ^ (bitLen v - 1) * 2 ^ (53 - bitLen v) := by
            rw [← pow_add]; congr 1; omega
      _ ≤ v * 2 ^ (53 - bitLen v) := Nat.mul_le_mul_right _ h1
    · calc v * 2 ^ (53 - bitLen v) < 2 ^ bitLen v * 2 ^ (53 - bitLen v) :=
            (Nat.mul_lt_mul_right (Nat.pos_pow_of_pos _ (by norm_num))).mpr h2
      _ = 2 ^ 53 := by rw [← pow_add]; congr 1; omega

namespace FloatVar

/-- The honestly computed hints satisfy all constraints the addition gadget
places on them. -/
theorem addHint_satisfies (x y : FloatTriple) :
    addConstraintsHold x y (addHint x y).1 (addHint x y).2.1 (addHint x y).2.2 := by
  by_cases h : addAbs x y = 0
  · obtain ⟨hq, he, hr⟩ := addHint_zero x y h
    exact ⟨Or.inl hq, by rw [hq, hr, h]; simp⟩
  · obtain ⟨hq, he, hr⟩ := addHint_nonzero x y h
    refine ⟨Or.inr (hq ▸ rneQ_window _ h), ?_⟩
    rw [hq, he, hr]
    simp only [addMN]
    have harith : addDelta x y + (rneShift (addAbs x y) - addDelta x y)
        = rneShift (addAbs x y) := by ring
    rw [harith]
    split_ifs with h1
    · simp only [rneQ, rneR, if_pos h1, pow_zero, Nat.mul_one]
      rw [Nat.shiftRight_eq_div_pow]
      have hmd := Nat.mod_add_div (addAbs x y) (2 ^ (rneShift (addAbs x y)).toNat)
      rw [Nat.mul_comm] at hmd
      omega
    · simp only [rneQ, rneR, if_neg h1, pow_zero, Nat.mul_one]
      rw [Nat.shiftLeft_eq]
      omega

end FloatVar

/-- Components of the rounding data for a value `b * 2 ^ t + c` with a 53-bit
leading part `b` and a remainder `c` below the split point. -/
theorem rne_decomp (b c t : ℕ) (hb1 : 2 ^ 52 ≤ b) (hb2 : b < 2 ^ 53)
    (ht : 1 ≤ t) (hclt : c < 2 ^ t) :
    rneShift (b * 2 ^ t + c) = (t : ℤ) ∧
    rneQ (b * 2 ^ t + c) = b ∧
    rneR (b * 2 ^ t + c) = c ∧
    rneHalf (b * 2 ^ t + c) = 2 ^ (t - 1) := by
  have hbl : bitLen (b * 2 ^ t + c) = t + 52 + 1 := by
    apply bitLen_eq
    · calc (2:ℕ) ^ (t + 52) = 2 ^ 52 * 2 ^ t := by rw [← pow_add]; ring_nf
      _ ≤ b * 2 ^ t := Nat.mul_le_mul_right _ hb1
      _ ≤ b * 2 ^ t + c := Nat.le_add_right _ _
    · have hb2' : b + 1 ≤ 2 ^ 53 := hb2
      calc b * 2 ^ t + c < b * 2 ^ t + 2 ^ t := by omega
      _ = (b + 1) * 2 ^ t := by ring
      _ ≤ 2 ^ 53 * 2 ^ t := Nat.mul_le_mul_right _ hb2'
      _ = 2 ^ (t + 52 + 1) := by rw [← pow_add]; ring_nf
  have hsh : rneShift (b * 2 ^ t + c) = (t : ℤ) := by
    simp only [rneShift, hbl]
    omega
  have hpos : 0 < rneShift (b * 2 ^ t + c) := by rw [hsh]; omega
  have htn : (rneShift (b * 2 ^ t + c)).toNat = t := by omega
  have hdiv : (b * 2 ^ t + c) / 2 ^ t = b := by
    rw [Nat.mul_comm, Nat.add_comm,
      Nat.add_mul_div_left _ _ (Nat.pos_pow_of_pos t (by norm_num)),
      Nat.div_eq_of_lt hclt]
    omega
  have hmod : (b * 2 ^ t + c) % 2 ^ t = c := by
    rw [Nat.mul_comm, Nat.add_comm, Nat.add_mul_mod_self_left, Nat.mod_eq_of_lt hclt]
  refine ⟨hsh, ?_, ?_, ?_⟩
  · simp only [rneQ, if_pos hpos, htn, Nat.shiftRight_eq_div_pow, hdiv]
  · simp only [rneR, if_pos hpos, htn, hmod]
  · simp only [rneHalf, if_pos hpos, htn]

/-- Rounding the sum of a far-apart pair `mb * 2 ^ d + A` (with `|A|` a 53-bit
mantissa): the small operand only influences the direction of the rounding
increment, except that when the large operand is a power of two and the small
one is subtracted, the rounded significand carries back up to `2 ^ 53`. -/
theorem farRound (mb A : ℤ) (d : ℕ) (hmb1 : 2 ^ 52 ≤ mb) (hmb2 : mb < 2 ^ 53)
    (hA1 : 2 ^ 52 ≤ A.natAbs) (hA2 : A.natAbs < 2 ^ 53) (hd : 55 ≤ d) :
    0 < mb * 2 ^ d + A ∧
    rneM (mb * 2 ^ d + A).natAbs = (if A < 0 ∧ mb = 2 ^ 52 then 2 ^ 53 else mb.toNat) ∧
    rneShift (mb * 2 ^ d + A).natAbs = (if A < 0 ∧ mb = 2 ^ 52 then (d : ℤ) - 1 else (d : ℤ)) := by
  have hmb0 : 0 ≤ mb := by omega
  have h53d2 : (2:ℕ) ^ 53 ≤ 2 ^ (d - 2) := Nat.pow_le_pow_right (by norm_num) (by omega)
  have hd1 : (2:ℕ) ^ d = 2 ^ (d - 1) * 2 := by rw [← pow_succ]; congr 1; omega
  have hd2 : (2:ℕ) ^ (d - 1) = 2 ^ (d - 2) * 2 := by rw [← pow_succ]; congr 1; omega
  have hP : ((mb.toNat * 2 ^ d : ℕ) : ℤ) = mb * 2 ^ d := by
    push_cast [Int.toNat_of_nonneg hmb0]
    ring
  have hPge : 2 ^ d ≤ mb.toNat * 2 ^ d := Nat.le_mul_of_pos_left _ (by omega)
  have hpos : 0 < mb * 2 ^ d + A := by omega
  by_cases hneg : A < 0
  · by_cases hsq : mb = 2 ^ 52
    · -- negative small operand against a power-of-two mantissa: carry up
      have hQ : mb.toNat * 2 ^ d = 2 ^ 53 * 2 ^ (d - 1) := by
        have : mb.toNat = 2 ^ 52 := by omega
        rw [this, ← pow_add, ← pow_add]
        congr 1
        omega
      have hprod : (2 ^ 53 - 1) * 2 ^ (d - 1) = 2 ^ 53 * 2 ^ (d - 1) - 2 ^ (d - 1) := by
        rw [Nat.sub_mul, one_mul]
      have hV : (mb * 2 ^ d + A).natAbs
          = (2 ^ 53 - 1) * 2 ^ (d - 1) + (2 ^ (d - 1) - A.natAbs) := by
        omega
      obtain ⟨hs, hq, hr, hh⟩ := rne_decomp (2 ^ 53 - 1) (2 ^ (d - 1) - A.natAbs) (d - 1)
        (by omega) (by omega) (by omega) (by omega)
      rw [show d - 1 - 1 = d - 2 from by omega] at hh
      rw [hV, if_pos ⟨hneg, hsq⟩, if_pos ⟨hneg, hsq⟩]
      refine ⟨hpos, ?_, ?_⟩
      · simp only [rneM, rneInc, hq, hr, hh]
        rw [if_neg (by omega), if_pos (by omega)]
        omega
      · rw [hs]
        omega
    · -- negative small operand, mantissa above the power of two
      have hprod : (mb.toNat - 1) * 2 ^ d = mb.toNat * 2 ^ d - 2 ^ d := by
        rw [Nat.sub_mul, one_mul]
      have hV : (mb * 2 ^ d + A).natAbs
          = (mb.toNat - 1) * 2 ^ d + (2 ^ d - A.natAbs) := by
        omega
      obtain ⟨hs, hq, hr, hh⟩ := rne_decomp (mb.toNat - 1) (2 ^ d - A.natAbs) d
        (by omega) (by omega) (by omega) (by omega)
      rw [hV, if_neg (by tauto), if_neg (by tauto)]
      refine ⟨hpos, ?_, ?_⟩
      · simp only [rneM, rneInc, hq, hr, hh]
        rw [if_neg (by omega), if_pos (by omega)]
        omega
      · rw [hs]
  · -- nonnegative small operand: plain truncation, no increment
    have hV : (mb * 2 ^ d + A).natAbs = mb.toNat * 2 ^ d + A.natAbs := by
      omega
    obtain ⟨hs, hq, hr, hh⟩ := rne_decomp mb.toNat A.natAbs d
      (by omega) (by omega) (by omega) (by omega)
    rw [hV, if_neg (by tauto), if_neg (by tauto)]
    refine ⟨hpos, ?_, ?_⟩
    · simp only [rneM, rneInc, hq, hr, hh]
      rw [if_neg (by omega), if_neg (by omega)]
      omega
    · rw [hs]

theorem farRound_pair (mb A : ℤ) (d0 : ℕ) (hmb1 : 2 ^ 52 ≤ mb) (hmb2 : mb < 2 ^ 53)
    (hA1 : 2 ^ 52 ≤ A.natAbs) (hA2 : A.natAbs < 2 ^ 53) (hd : 65 ≤ d0) :
    0 < mb * 2 ^ 64 + A ∧ 0 < mb * 2 ^ d0 + A ∧
    rneM (mb * 2 ^ 64 + A).natAbs = rneM (mb * 2 ^ d0 + A).natAbs ∧
    rneShift (mb * 2 ^ 64 + A).natAbs - 64 = rneShift (mb * 2 ^ d0 + A).natAbs - d0 := by
  obtain ⟨p1, m1, s1⟩ := farRound mb A 64 hmb1 hmb2 hA1 hA2 (by norm_num)
  obtain ⟨p2, m2, s2⟩ := farRound mb A d0 hmb1 hmb2 hA1 hA2 (by omega)
  refine ⟨p1, p2, by rw [m1, m2], ?_⟩
  rw [s1, s2]
  split_ifs <;> push_cast <;> ring

namespace FloatVar

/-- The clamped gadget sum and the exact sum round to the same triple when the
exponent gap exceeds the clamp. -/
theorem add_far_case (x y : FloatTriple) (σ mb A : ℤ) (d0 : ℕ)
    (hσσ : σ * σ = 1)
    (hmb1 : 2 ^ 52 ≤ mb) (hmb2 : mb < 2 ^ 53)
    (hA1 : 2 ^ 52 ≤ A.natAbs) (hA2 : A.natAbs < 2 ^ 53) (hd : 65 ≤ d0)
    (hSc : addSum x y = σ * (mb * 2 ^ 64 + A))
    (hSt : addTrueSum x y = σ * (mb * 2 ^ (d0 : ℕ) + A))
    (hexp : addExponent x y - addDelta x y = min x.exponent y.exponent + ((d0 : ℤ) - 64))
    (hnc : ¬ addCarry x y) :
    add x y = fAdd x y := by
  obtain ⟨p1, p2, hm, hs⟩ := farRound_pair mb A d0 hmb1 hmb2 hA1 hA2 hd
  have hσ0 : σ = 1 ∨ σ = -1 := mul_self_eq_one_iff.mp hσσ
  have habs_c : addAbs x y = (mb * 2 ^ 64 + A).natAbs := by
    rw [addAbs_eq_natAbs, hSc, Int.natAbs_mul]
    rcases hσ0 with h | h <;> rw [h] <;> simp
  have habs_t : (addTrueSum x y).natAbs = (mb * 2 ^ d0 + A).natAbs := by
    rw [hSt, Int.natAbs_mul]
    rcases hσ0 with h | h <;> rw [h] <;> simp
  have hzt : addTrueSum x y ≠ 0 := by
    rw [hSt]
    rcases hσ0 with h | h <;> rw [h] <;> intro hcon <;> omega
  have habsne : addAbs x y ≠ 0 := by rw [habs_c]; omega
  rw [add_eq_rne x y habsne]
  have hncM : rneM ((addTrueSum x y).natAbs) ≠ 2 ^ 53 := fun hcon => hnc ⟨hzt, hcon⟩
  simp only [fAdd, if_neg hzt, roundRNE]
  rw [if_neg hncM]
  simp only [FloatTriple.mk.injEq]
  refine ⟨?_, ?_, ?_⟩
  · simp only [addSign]
    have h1 : addSum x y < 0 ↔ addTrueSum x y < 0 := by
      rw [hSc, hSt]
      rcases hσ0 with h | h <;> rw [h]
      · simp only [one_mul]; omega
      · constructor <;> intro <;> omega
    by_cases hc : addTrueSum x y < 0
    · rw [if_pos (h1.mpr hc), if_pos hc]
    · rw [if_neg (fun hcon => hc (h1.mp hcon)), if_neg hc]
  · rw [habs_c, habs_t, hexp]
    omega
  · rw [habs_c, habs_t, hm]

/-- The addition gadget matches native round-to-nearest-even addition away
from the rounding-carry boundary. -/
theorem add_matches_native (x y : FloatTriple) (hx : isNormal x) (hy : isNormal y)
    (hnc : ¬ addCarry x y) : add x y = fAdd x y := by
  obtain ⟨hxs, hxm1, hxm2⟩ := hx
  obtain ⟨hys, hym1, hym2⟩ := hy
  by_cases hd : (x.exponent - y.exponent).natAbs ≤ 64
  · have hsum : addSum x y = addTrueSum x y := addSum_eq_trueSum x y hd
    have habs : addAbs x y = (addTrueSum x y).natAbs := by
      rw [addAbs_eq_natAbs, hsum]
    by_cases hz : addTrueSum x y = 0
    · rw [add_eq_zero_out x y (by rw [habs, hz]; rfl)]
      simp only [fAdd, if_pos hz]
    · have habsne : addAbs x y ≠ 0 := by rw [habs]; omega
      rw [add_eq_rne x y habsne]
      have hncM : rneM ((addTrueSum x y).natAbs) ≠ 2 ^ 53 := fun hcon => hnc ⟨hz, hcon⟩
      simp only [fAdd, if_neg hz, roundRNE]
      rw [if_neg hncM]
      simp only [FloatTriple.mk.injEq]
      refine ⟨?_, ?_, ?_⟩
      · simp only [addSign, hsum]
      · rw [habs, addExponent_eq, addDelta_eq]
        omega
      · rw [habs]
  · have hd65 : 65 ≤ (x.exponent - y.exponent).natAbs := by omega
    have hdlt : addDelta x y = 64 := by rw [addDelta_eq]; omega
    have htoNat64 : (addDelta x y).toNat = 64 := by rw [hdlt]; rfl
    rcases lt_trichotomy x.exponent y.exponent with hlt | heq | hgt
    · have hσσ : y.sign * y.sign = 1 := by rcases hys with h | h <;> rw [h] <;> norm_num
      have hAabs : (y.sign * (x.sign * x.mantissa)).natAbs = x.mantissa.natAbs := by
        rw [Int.natAbs_mul, Int.natAbs_mul]
        rcases hys with h | h <;> rcases hxs with h2 | h2 <;> rw [h, h2] <;> simp
      apply add_far_case x y y.sign y.mantissa (y.sign * (x.sign * x.mantissa))
        ((x.exponent - y.exponent).natAbs) hσσ hym1 hym2
        (by rw [hAabs]; omega) (by rw [hAabs]; omega) hd65
      · simp only [addSum, if_pos hlt, htoNat64]
        have hexpand : y.sign * (y.mantissa * 2 ^ 64 + y.sign * (x.sign * x.mantissa))
            = (y.sign * y.mantissa) * 2 ^ 64 + (y.sign * y.sign) * (x.sign * x.mantissa) := by
          ring
        rw [hexpand, hσσ]
        ring
      · simp only [addTrueSum, if_pos (le_of_lt hlt)]
        have hexpand : y.sign * (y.mantissa * 2 ^ ((x.exponent - y.exponent).natAbs)
              + y.sign * (x.sign * x.mantissa))
            = (y.sign * y.mantissa) * 2 ^ ((x.exponent - y.exponent).natAbs)
              + (y.sign * y.sign) * (x.sign * x.mantissa) := by
          ring
        rw [hexpand, hσσ]
        ring
      · rw [addExponent_eq, hdlt]
        omega
      · exact hnc
    · omega
    · have hσσ : x.sign * x.sign = 1 := by rcases hxs with h | h <;> rw [h] <;> norm_num
      have hAabs : (x.sign * (y.sign * y.mantissa)).natAbs = y.mantissa.natAbs := by
        rw [Int.natAbs_mul, Int.natAbs_mul]
        rcases hys with h | h <;> rcases hxs with h2 | h2 <;> rw [h, h2] <;> simp
      apply add_far_case x y x.sign x.mantissa (x.sign * (y.sign * y.mantissa))
        ((x.exponent - y.exponent).natAbs) hσσ hxm1 hxm2
        (by rw [hAabs]; omega) (by rw [hAabs]; omega) hd65
      · simp only [addSum, if_neg (by omega : ¬ x.exponent < y.exponent), htoNat64]
        have hexpand : x.sign * (x.mantissa * 2 ^ 64 + x.sign * (y.sign * y.mantissa))
            = (x.sign * x.mantissa) * 2 ^ 64 + (x.sign * x.sign) * (y.sign * y.mantissa) := by
          ring
        rw [hexpand, hσσ]
        ring
      · simp only [addTrueSum, if_neg (by omega : ¬ x.exponent ≤ y.exponent)]
        have hexpand : x.sign * (x.mantissa * 2 ^ ((x.exponent - y.exponent).natAbs)
              + x.sign * (y.sign * y.mantissa))
            = (x.sign * x.mantissa) * 2 ^ ((x.exponent - y.exponent).natAbs)
              + (x.sign * x.sign) * (y.sign * y.mantissa) := by
          ring
        rw [hexpand, hσσ]
        ring
      · rw [addExponent_eq, hdlt]
        omega
      · exact hnc

end FloatVar

/-- Bit `105` of a value below `2 ^ 106` is set exactly when the value is at
least `2 ^ 105`. -/
theorem testBit_top (P : ℕ) (h : P < 2 ^ 106) : P.testBit 105 = true ↔ 2 ^ 105 ≤ P := by
  rw [Nat.testBit_to_div_mod]
  simp only [decide_eq_true_eq]
  omega

namespace FloatVar

/-- The multiplication gadget matches native round-to-nearest-even
multiplication away from the rounding-carry boundary. -/
theorem mul_matches_native (x y : FloatTriple) (hx : isNormal x) (hy : isNormal y)
    (hnc : ¬ mulCarry x y) : mul x y = fMul x y := by
  obtain ⟨hxs, hxm1, hxm2⟩ := hx
  obtain ⟨hys, hym1, hym2⟩ := hy
  have hlo : (2:ℤ) ^ 104 ≤ x.mantissa * y.mantissa := by
    calc (2:ℤ) ^ 104 = 2 ^ 52 * 2 ^ 52 := by norm_num
    _ ≤ x.mantissa * y.mantissa := mul_le_mul hxm1 hym1 (by norm_num) (by omega)
  have hhi : x.mantissa * y.mantissa < 2 ^ 106 := by
    calc x.mantissa * y.mantissa < 2 ^ 53 * 2 ^ 53 :=
      mul_lt_mul'' hxm2 hym2 (by omega) (by omega)
    _ = 2 ^ 106 := by norm_num
  have hPc : ((mulPRaw x y : ℕ) : ℤ) = x.mantissa * y.mantissa := by
    simp only [mulPRaw]
    omega
  have hPlo : 2 ^ 104 ≤ mulPRaw x y := by omega
  have hPhi : mulPRaw x y < 2 ^ 106 := by omega
  have hfabs : (x.mantissa * y.mantissa).natAbs = mulPRaw x y := by
    simp only [mulPRaw]
    omega
  have hncP : rneM (mulPRaw x y) ≠ 2 ^ 53 := by
    intro hcon
    exact hnc (by rw [mulCarry, hfabs]; exact hcon)
  by_cases hb : 2 ^ 105 ≤ mulPRaw x y
  · have hbit : mulB x y = true := (testBit_top _ hPhi).mpr hb
    have hmulP : mulP x y = mulPRaw x y := by
      rw [mulP, hbit, if_pos rfl]
    have hbl : bitLen (mulPRaw x y) = 106 := bitLen_eq _ 105 hb hPhi
    have hsh : rneShift (mulPRaw x y) = 53 := by
      simp only [rneShift, hbl]
      norm_num
    have hq : mulQ x y = rneQ (mulPRaw x y) := by
      rw [mulQ, hmulP]
      simp only [rneQ, hsh]
      rw [if_pos (by norm_num : (0:ℤ) < 53)]
      rfl
    have hr : mulR x y = rneR (mulPRaw x y) := by
      rw [mulR, hmulP, hq]
      simp only [rneR, rneQ, hsh]
      rw [if_pos (by norm_num : (0:ℤ) < 53), if_pos (by norm_num : (0:ℤ) < 53)]
      show mulPRaw x y - mulPRaw x y >>> 53 * 2 ^ 53 = mulPRaw x y % 2 ^ 53
      rw [← Nat.shiftLeft_eq]
      exact sub_shift_eq_mod _ _
    have hhalf : rneHalf (mulPRaw x y) = 2 ^ 52 := by
      simp only [rneHalf, hsh]
      rw [if_pos (by norm_num : (0:ℤ) < 53)]
      decide
    simp only [mul, fMul, roundRNE, if_neg hncP, hfabs]
    simp only [FloatTriple.mk.injEq]
    refine ⟨trivial, ?_, ?_⟩
    · rw [mulE, hbit, if_pos rfl, hsh]
      ring
    · rw [hq, hr, roundInc_eq]
      simp only [rneM, rneInc, hhalf]
      push_cast
      ring
  · have hblt : mulPRaw x y < 2 ^ 105 := by omega
    have hbit : mulB x y = false := by
      cases hcase : mulB x y
      · rfl
      · exact absurd ((testBit_top _ hPhi).mp hcase) (by omega)
    have hmulP : mulP x y = 2 * mulPRaw x y := by
      rw [mulP, hbit, if_neg (by simp)]
    have hbl : bitLen (mulPRaw x y) = 105 := bitLen_eq _ 104 hPlo hblt
    have hsh : rneShift (mulPRaw x y) = 52 := by
      simp only [rneShift, hbl]
      norm_num
    have hq : mulQ x y = rneQ (mulPRaw x y) := by
      rw [mulQ, hmulP]
      simp only [rneQ, hsh]
      rw [if_pos (by norm_num : (0:ℤ) < 52)]
      show (2 * mulPRaw x y) >>> 53 = mulPRaw x y >>> 52
      rw [Nat.shiftRight_eq_div_pow, Nat.shiftRight_eq_div_pow]
      have h53 : (2:ℕ) ^ 53 = 2 * 2 ^ 52 := by norm_num
      rw [h53, Nat.mul_div_mul_left _ _ (by norm_num)]
    have hrq : rneQ (mulPRaw x y) = mulPRaw x y / 2 ^ 52 := by
      simp only [rneQ, hsh]
      rw [if_pos (by norm_num : (0:ℤ) < 52)]
      rw [Nat.shiftRight_eq_div_pow]
      rfl
    have hrr : rneR (mulPRaw x y) = mulPRaw x y % 2 ^ 52 := by
      simp only [rneR, hsh]
      rw [if_pos (by norm_num : (0:ℤ) < 52)]
      rfl
    have hr : mulR x y = 2 * rneR (mulPRaw x y) := by
      rw [mulR, hmulP, hq, hrq, hrr]
      have hmd := Nat.mod_add_div (mulPRaw x y) (2 ^ 52)
      have hp : mulPRaw x y / 2 ^ 52 * 2 ^ 53 = 2 ^ 53 * (mulPRaw x y / 2 ^ 52) := by ring
      omega
    have hhalf : rneHalf (mulPRaw x y) = 2 ^ 51 := by
      simp only [rneHalf, hsh]
      rw [if_pos (by norm_num : (0:ℤ) < 52)]
      decide
    simp only [mul, fMul, roundRNE, if_neg hncP, hfabs]
    simp only [FloatTriple.mk.injEq]
    refine ⟨trivial, ?_, ?_⟩
    · rw [mulE, hbit, if_neg (by simp), hsh]
      ring
    · rw [hq, hr, roundInc_eq]
      simp only [rneM, rneInc, hhalf]
      have hrlt : rneR (mulPRaw x y) < 2 ^ 52 := by
        rw [hrr]
        exact Nat.mod_lt _ (by norm_num)
      split_ifs <;> push_cast <;> omega

end FloatVar

theorem decodeSign_cases (bits : ℕ) : decodeSign bits = 1 ∨ decodeSign bits = -1 := by
  unfold decodeSign
  split_ifs <;> simp

theorem allocValue_isNormal (bits : ℕ) (h : normalBits bits) :
    isNormal (FloatVar.allocValue bits) := by
  obtain ⟨h64, hE0, hE2047⟩ := h
  refine ⟨decodeSign_cases bits, ?_, ?_⟩
  · simp only [FloatVar.allocValue, decodeMantissa, if_neg hE0]
    have hm : bits % 2 ^ 52 < 2 ^ 52 := Nat.mod_lt _ (by norm_num)
    omega
  · simp only [FloatVar.allocValue, decodeMantissa, if_neg hE0]
    have hm : bits % 2 ^ 52 < 2 ^ 52 := Nat.mod_lt _ (by norm_num)
    omega

theorem verifier_input_eq (bits : ℕ) :
    FloatVar.verifier_input bits = some [decodeSign bits,
      signed_to_field (decodeExponent bits + 52), (decodeMantissa bits : ℤ)] := by
  unfold FloatVar.verifier_input signToOne
  rcases decodeSign_cases bits with h | h <;> rw [h] <;> simp

theorem new_variable_eq (bits : ℕ) :
    FloatVar.new_variable bits = .ok (FloatVar.allocValue bits) := by
  unfold FloatVar.new_variable FloatVar.allocSign FloatVar.allocValue
  rcases decodeSign_cases bits with h | h <;> rw [h] <;> rfl

namespace FloatVar

/-- Adding any triple to its negation lands in the zero branch, producing the
conventional zero triple. -/
theorem add_neg_self (t : FloatTriple) : add t (neg t) = ⟨1, -1023, 0⟩ := by
  apply add_eq_zero_out
  rw [addAbs_eq_natAbs]
  have hsum : addSum t (neg t) = 0 := by
    simp only [addSum, neg]
    rw [if_neg (lt_irrefl _)]
    have hd0 : (addDelta t ⟨0 - t.sign, t.exponent, t.mantissa⟩).toNat = 0 := by
      rw [addDelta_eq]
      simp
    rw [hd0]
    ring
  rw [hsum]
  rfl

end FloatVar

/-- Claim C1 (amended): for bit patterns of finite normal doubles whose
round-to-nearest-even sum does not carry out of the 53-bit significand window,
the addition gadget output equals the decoded native sum, the honestly
computed hints satisfy every constraint the gadget emits, and the equality
constraints against the encoding of the native sum are all satisfied.  (The
original claim fails in two ways, see the counterexample: at a rounding-carry
pair the output triple differs from the native decode, and the one-ulp
perturbation of the public mantissa stays satisfiable because the remainder
wire `r` is unconstrained.) -/
theorem c1_add_correct (ba bb : ℕ) (ha : normalBits ba) (hb : normalBits bb)
    (hnc : ¬ addCarry (FloatVar.allocValue ba) (FloatVar.allocValue bb)) :
    FloatVar.add (FloatVar.allocValue ba) (FloatVar.allocValue bb)
      = fAdd (FloatVar.allocValue ba) (FloatVar.allocValue bb) ∧
    FloatVar.addConstraintsHold (FloatVar.allocValue ba) (FloatVar.allocValue bb)
      (FloatVar.addHint (FloatVar.allocValue ba) (FloatVar.allocValue bb)).1
      (FloatVar.addHint (FloatVar.allocValue ba) (FloatVar.allocValue bb)).2.1
      (FloatVar.addHint (FloatVar.allocValue ba) (FloatVar.allocValue bb)).2.2 ∧
    ∀ p ∈ FloatVar.equalConstraints
      (FloatVar.add (FloatVar.allocValue ba) (FloatVar.allocValue bb))
      (fAdd (FloatVar.allocValue ba) (FloatVar.allocValue bb)), p := by
  have heq := FloatVar.add_matches_native _ _ (allocValue_isNormal ba ha)
    (allocValue_isNormal bb hb) hnc
  refine ⟨heq, FloatVar.addHint_satisfies _ _, ?_⟩
  rw [heq]
  intro p hp
  simp only [FloatVar.equalConstraints, List.mem_cons, List.not_mem_nil, or_false] at hp
  rcases hp with h | h | h <;> subst h <;> trivial

theorem c1_add_correct_witness :
    normalBits 4607182418800017408 ∧ normalBits 4611686018427387904 ∧
    ¬ addCarry (FloatVar.allocValue 4607182418800017408)
        (FloatVar.allocValue 4611686018427387904) ∧
    FloatVar.add (FloatVar.allocValue 4607182418800017408)
        (FloatVar.allocValue 4611686018427387904)
      = fAdd (FloatVar.allocValue 4607182418800017408)
        (FloatVar.allocValue 4611686018427387904) :=
  ⟨by decide, by decide, by decide,
    (c1_add_correct 4607182418800017408 4611686018427387904
      (by decide) (by decide) (by decide)).1⟩

/-- Claim C1 fails as stated: at the tie pair `(2 ^ 53 - 1) + 2 ^ -1`-ulp the
gadget output differs from the decoded native sum (it produces the
unnormalized mantissa `2 ^ 53`), and at a plain pair the constraints are also
satisfied by a dishonest hint whose output mantissa is one ulp below the
native one, so the claimed one-ulp unsatisfiability does not hold. -/
theorem c1_add_counterexample :
    (FloatVar.add ⟨1, 0, 2 ^ 53 - 1⟩ ⟨1, -53, 2 ^ 52⟩
      ≠ fAdd ⟨1, 0, 2 ^ 53 - 1⟩ ⟨1, -53, 2 ^ 52⟩) ∧
    FloatVar.addConstraintsHold ⟨1, 0, 2 ^ 52 + 4⟩ ⟨1, 0, 2 ^ 52⟩ (2 ^ 52) 1 4 ∧
    FloatVar.addOutput ⟨1, 0, 2 ^ 52 + 4⟩ ⟨1, 0, 2 ^ 52⟩ (2 ^ 52) 1 4
      = ⟨1, 1, 2 ^ 52 + 1⟩ ∧
    fAdd ⟨1, 0, 2 ^ 52 + 4⟩ ⟨1, 0, 2 ^ 52⟩ = ⟨1, 1, 2 ^ 52 + 2⟩ := by
  refine ⟨by decide, by decide, by decide, by decide⟩

/-- Claim C2 (amended): for bit patterns of finite normal doubles whose
round-to-nearest-even product does not carry out of the 53-bit window, the
multiplication gadget output equals the decoded native product; the sign is
`x.sign * y.sign`, and bit 105 of the raw product decides between keeping `p`
with exponent increment 1 and doubling `p` with increment 0. -/
theorem c2_mul_correct (ba bb : ℕ) (ha : normalBits ba) (hb : normalBits bb)
    (hnc : ¬ mulCarry (FloatVar.allocValue ba) (FloatVar.allocValue bb)) :
    FloatVar.mul (FloatVar.allocValue ba) (FloatVar.allocValue bb)
      = fMul (FloatVar.allocValue ba) (FloatVar.allocValue bb) ∧
    (FloatVar.mul (FloatVar.allocValue ba) (FloatVar.allocValue bb)).sign
      = (FloatVar.allocValue ba).sign * (FloatVar.allocValue bb).sign ∧
    (∀ x y : FloatTriple, FloatVar.mulB x y = true →
      FloatVar.mulP x y = FloatVar.mulPRaw x y ∧
      FloatVar.mulE x y = x.exponent + y.exponent + 1) ∧
    (∀ x y : FloatTriple, FloatVar.mulB x y = false →
      FloatVar.mulP x y = 2 * FloatVar.mulPRaw x y ∧
      FloatVar.mulE x y = x.exponent + y.exponent) := by
  refine ⟨FloatVar.mul_matches_native _ _ (allocValue_isNormal ba ha)
    (allocValue_isNormal bb hb) hnc, rfl, ?_, ?_⟩
  · intro x y hbit
    constructor
    · rw [FloatVar.mulP, hbit, if_pos rfl]
    · rw [FloatVar.mulE, hbit, if_pos rfl]
  · intro x y hbit
    constructor
    · rw [FloatVar.mulP, hbit, if_neg (by simp)]
    · rw [FloatVar.mulE, hbit, if_neg (by simp)]
      ring

theorem c2_mul_correct_witness :
    normalBits 4607182418800017408 ∧ normalBits 4611686018427387904 ∧
    ¬ mulCarry (FloatVar.allocValue 4607182418800017408)
        (FloatVar.allocValue 4611686018427387904) ∧
    FloatVar.mul (FloatVar.allocValue 4607182418800017408)
        (FloatVar.allocValue 4611686018427387904)
      = fMul (FloatVar.allocValue 4607182418800017408)
        (FloatVar.allocValue 4611686018427387904) :=
  ⟨by decide, by decide, by decide,
    (c2_mul_correct 4607182418800017408 4611686018427387904
      (by decide) (by decide) (by decide)).1⟩

/-- Claim C2 fails as stated: at mantissas `2 ^ 52 + 1` and `2 ^ 53 - 2` the
rounding increment pushes the gadget's output mantissa to the unnormalized
value `2 ^ 53`, while the decoded native product is `2 ^ 52` with the exponent
one higher. -/
theorem c2_mul_counterexample :
    FloatVar.mul ⟨1, 0, 2 ^ 52 + 1⟩ ⟨1, 0, 2 ^ 53 - 2⟩ = ⟨1, 0, 2 ^ 53⟩ ∧
    fMul ⟨1, 0, 2 ^ 52 + 1⟩ ⟨1, 0, 2 ^ 53 - 2⟩ = ⟨1, 1, 2 ^ 52⟩ ∧
    FloatVar.mul ⟨1, 0, 2 ^ 52 + 1⟩ ⟨1, 0, 2 ^ 53 - 2⟩
      ≠ fMul ⟨1, 0, 2 ^ 52 + 1⟩ ⟨1, 0, 2 ^ 53 - 2⟩ := by
  refine ⟨by decide, by decide, by decide⟩

/-- Claim C3 (amended): the disjunctive range constraint of the addition
gadget is enforced on the pre-rounding quotient wire `q`, not on the output
mantissa: every satisfying assignment has `q = 0` or `q ∈ [2 ^ 52, 2 ^ 53)`,
and the output mantissa, which is `q` plus the rounding increment of at most
one, therefore lies in `{0, 1} ∪ [2 ^ 52, 2 ^ 53]`.  (As stated the claim
fails: the honest assignment at a rounding-carry input satisfies all
constraints with output mantissa exactly `2 ^ 53`, see the counterexample.) -/
theorem c3_mantissa_range (x y : FloatTriple) (q : ℕ) (e : ℤ) (r : ℕ)
    (h : FloatVar.addConstraintsHold x y q e r) :
    (q = 0 ∨ (2 ^ 52 ≤ q ∧ q < 2 ^ 53)) ∧
    ((FloatVar.addOutput x y q e r).mantissa = q ∨
      (FloatVar.addOutput x y q e r).mantissa = (q : ℤ) + 1) ∧
    ((FloatVar.addOutput x y q e r).mantissa = 0 ∨
     (FloatVar.addOutput x y q e r).mantissa = 1 ∨
     (2 ^ 52 ≤ (FloatVar.addOutput x y q e r).mantissa ∧
      (FloatVar.addOutput x y q e r).mantissa ≤ 2 ^ 53)) := by
  have hinc : roundInc q (FloatVar.addU x y e) r = 0 ∨
      roundInc q (FloatVar.addU x y e) r = 1 := by
    unfold roundInc
    split_ifs <;> simp
  have hm : (FloatVar.addOutput x y q e r).mantissa
      = (q : ℤ) + (roundInc q (FloatVar.addU x y e) r : ℤ) := rfl
  refine ⟨h.1, ?_, ?_⟩
  · rw [hm]
    rcases hinc with h0 | h0 <;> rw [h0] <;> [left; right] <;> push_cast <;> ring
  · rw [hm]
    rcases h.1 with hq | hq <;> rcases hinc with h0 | h0 <;> rw [h0] <;> omega

theorem c3_mantissa_range_witness :
    FloatVar.addConstraintsHold ⟨1, 0, 2 ^ 52⟩ ⟨1, 0, 2 ^ 52⟩ (2 ^ 52) 1 0 ∧
    ((FloatVar.addOutput ⟨1, 0, 2 ^ 52⟩ ⟨1, 0, 2 ^ 52⟩ (2 ^ 52) 1 0).mantissa = 0 ∨
     (FloatVar.addOutput ⟨1, 0, 2 ^ 52⟩ ⟨1, 0, 2 ^ 52⟩ (2 ^ 52) 1 0).mantissa = 1 ∨
     (2 ^ 52 ≤ (FloatVar.addOutput ⟨1, 0, 2 ^ 52⟩ ⟨1, 0, 2 ^ 52⟩ (2 ^ 52) 1 0).mantissa ∧
      (FloatVar.addOutput ⟨1, 0, 2 ^ 52⟩ ⟨1, 0, 2 ^ 52⟩ (2 ^ 52) 1 0).mantissa ≤ 2 ^ 53)) :=
  ⟨by decide,
    (c3_mantissa_range ⟨1, 0, 2 ^ 52⟩ ⟨1, 0, 2 ^ 52⟩ (2 ^ 52) 1 0 (by decide)).2.2⟩

/-- Claim C3 fails as stated: the honest hints at the rounding-carry input
satisfy every constraint of the gadget, yet the output mantissa is `2 ^ 53`,
outside `{0} ∪ [2 ^ 52, 2 ^ 53)`; the range constraint only restricts the
pre-rounding quotient. -/
theorem c3_mantissa_range_counterexample :
    FloatVar.addHint ⟨1, 0, 2 ^ 53 - 1⟩ ⟨1, -53, 2 ^ 52⟩ = (2 ^ 53 - 1, 0, 2 ^ 52) ∧
    FloatVar.addConstraintsHold ⟨1, 0, 2 ^ 53 - 1⟩ ⟨1, -53, 2 ^ 52⟩ (2 ^ 53 - 1) 0 (2 ^ 52) ∧
    (FloatVar.addOutput ⟨1, 0, 2 ^ 53 - 1⟩ ⟨1, -53, 2 ^ 52⟩ (2 ^ 53 - 1) 0 (2 ^ 52)).mantissa
      = 2 ^ 53 ∧
    ¬ ((FloatVar.addOutput ⟨1, 0, 2 ^ 53 - 1⟩ ⟨1, -53, 2 ^ 52⟩
        (2 ^ 53 - 1) 0 (2 ^ 52)).mantissa = 0 ∨
       (2 ^ 52 ≤ (FloatVar.addOutput ⟨1, 0, 2 ^ 53 - 1⟩ ⟨1, -53, 2 ^ 52⟩
          (2 ^ 53 - 1) 0 (2 ^ 52)).mantissa ∧
        (FloatVar.addOutput ⟨1, 0, 2 ^ 53 - 1⟩ ⟨1, -53, 2 ^ 52⟩
          (2 ^ 53 - 1) 0 (2 ^ 52)).mantissa < 2 ^ 53)) := by
  refine ⟨by decide, by decide, by decide, by decide⟩

/-- Claim C4: in both gadgets the rounding increment is the least-significant
bit of `q` when `r` equals `u` exactly, and otherwise the least-significant
bit of the field element `2 * (u - r)`, which is `1` exactly when `r` exceeds
`u` and `0` when `r` is below `u`; the increment is added to `q` to give the
output mantissa of `add` and of `mul`. -/
theorem c4_rounding_increment :
    (∀ q u r : ℕ, roundInc q u r = if r = u then q % 2 else if u < r then 1 else 0) ∧
    (∀ x y : FloatTriple, ∀ q : ℕ, ∀ e : ℤ, ∀ r : ℕ,
      (FloatVar.addOutput x y q e r).mantissa
        = (q : ℤ) + (roundInc q (FloatVar.addU x y e) r : ℤ)) ∧
    (∀ x y : FloatTriple, (FloatVar.mul x y).mantissa
      = (FloatVar.mulQ x y : ℤ)
        + (roundInc (FloatVar.mulQ x y) (2 ^ 52) (FloatVar.mulR x y) : ℤ)) :=
  ⟨roundInc_eq, fun _ _ _ _ _ => rfl, fun _ _ => rfl⟩

/-- Claim C5: the addition gadget's working exponent is the larger operand
exponent under the (unchecked) field comparison, and `delta`, computed as
`2 * max - x.exponent - y.exponent`, equals the absolute exponent difference
clamped to `64`. -/
theorem c5_alignment : ∀ x y : FloatTriple,
    FloatVar.addAlign x y = (max x.exponent y.exponent,
      min (((x.exponent - y.exponent).natAbs : ℤ)) 64) ∧
    (64 < ((x.exponent - y.exponent).natAbs : ℤ) → FloatVar.addDelta x y = 64) :=
  fun x y => ⟨FloatVar.addAlign_eq x y, fun h => by rw [FloatVar.addDelta_eq]; omega⟩

/-- Claim C6: adding the FloatVar of a finite normal double to its negation
produces sign `+1`, mantissa `0` and the conventional exponent `-1023`, and
this triple is exactly what `verifier_input` produces for the native
double `0.0` (bit pattern `0`, decoded shifted exponent `-1023`). -/
theorem c6_add_neg_zero (bits : ℕ) (_h : normalBits bits) :
    FloatVar.add (FloatVar.allocValue bits) (FloatVar.neg (FloatVar.allocValue bits))
      = ⟨1, -1023, 0⟩ ∧
    FloatVar.verifier_input 0 = some [1, -1023, 0] ∧
    FloatVar.verifier_input 0 = some
      [(⟨1, -1023, 0⟩ : FloatTriple).sign, (⟨1, -1023, 0⟩ : FloatTriple).exponent,
       (⟨1, -1023, 0⟩ : FloatTriple).mantissa] :=
  ⟨FloatVar.add_neg_self _, by decide, by decide⟩

theorem c6_add_neg_zero_witness :
    normalBits 4607182418800017408 ∧
    FloatVar.add (FloatVar.allocValue 4607182418800017408)
        (FloatVar.neg (FloatVar.allocValue 4607182418800017408)) = ⟨1, -1023, 0⟩ :=
  ⟨by decide, (c6_add_neg_zero 4607182418800017408 (by decide)).1⟩

/-- Claim C7: `neg` returns a new triple whose sign is the additive inverse
`0 - sign` of the input sign, whose exponent and mantissa are exactly the
input wires, and whose construction emits no constraints. -/
theorem c7_neg_frame : ∀ x : FloatTriple,
    FloatVar.neg x = ⟨0 - x.sign, x.exponent, x.mantissa⟩ ∧
    (FloatVar.neg x).sign = -x.sign ∧
    (FloatVar.neg x).exponent = x.exponent ∧
    (FloatVar.neg x).mantissa = x.mantissa ∧
    FloatVar.negConstraints x = [] :=
  fun x => ⟨rfl, by simp [FloatVar.neg], rfl, rfl, rfl⟩

/-- Claim C8: `verifier_input` is a pure function whose ordered output vector
`[sign, exponent, mantissa]` consists of exactly the values that
`new_variable` binds to the three wires when allocating the same double. -/
theorem c8_verifier_input_matches (bits : ℕ) (_h : normalBits bits) :
    FloatVar.new_variable bits = .ok (FloatVar.allocValue bits) ∧
    FloatVar.verifier_input bits = some
      [(FloatVar.allocValue bits).sign, (FloatVar.allocValue bits).exponent,
       (FloatVar.allocValue bits).mantissa] :=
  ⟨new_variable_eq bits, by rw [verifier_input_eq]; rfl⟩

theorem c8_verifier_input_matches_witness :
    normalBits 4611686018427387904 ∧
    FloatVar.verifier_input 4611686018427387904 = some
      [(FloatVar.allocValue 4611686018427387904).sign,
       (FloatVar.allocValue 4611686018427387904).exponent,
       (FloatVar.allocValue 4611686018427387904).mantissa] :=
  ⟨by decide, (c8_verifier_input_matches 4611686018427387904 (by decide)).2⟩

/-- Claim C9: when an off-circuit hint value does not fit the field's
fixed-width canonical integer representation, each of the three witness
closures (`q` and `r` in `add`, `q` in `mul`) aborts synthesis unrecoverably
instead of returning a recoverable `SynthesisError`. -/
theorem c9_hint_panic (bound v : ℕ) (h : ¬ v < bound) :
    addQHintOutcome bound v = .panicked ∧
    addRHintOutcome bound v = .panicked ∧
    mulQHintOutcome bound v = .panicked ∧
    ∀ e : SynthErr, addQHintOutcome bound v ≠ .recoverable e ∧
      addRHintOutcome bound v ≠ .recoverable e ∧
      mulQHintOutcome bound v ≠ .recoverable e := by
  unfold addQHintOutcome addRHintOutcome mulQHintOutcome
  rw [if_neg h]
  exact ⟨rfl, rfl, rfl, fun e => ⟨by simp, by simp, by simp⟩⟩

theorem c9_hint_panic_witness :
    ¬ (7 : ℕ) < 3 ∧ addQHintOutcome 3 7 = .panicked :=
  ⟨by decide, (c9_hint_panic 3 7 (by decide)).1⟩

/-- Claim C10: for every 64-bit pattern, including zero, subnormals,
infinities and NaN, the decoded sign is `1` or `-1`, so the `unreachable`
branch of `verifier_input` is never taken and the allocation closure never
returns the assignment-missing error: both decodes are total. -/
theorem c10_decode_sign_total (bits : ℕ) (_h : bits < 2 ^ 64) :
    (decodeSign bits = 1 ∨ decodeSign bits = -1) ∧
    (FloatVar.verifier_input bits).isSome = true ∧
    FloatVar.new_variable bits = .ok (FloatVar.allocValue bits) := by
  refine ⟨decodeSign_cases bits, ?_, new_variable_eq bits⟩
  rw [verifier_input_eq]
  rfl

theorem c10_decode_sign_total_witness :
    (9221120237041090560 : ℕ) < 2 ^ 64 ∧
    (FloatVar.verifier_input 9221120237041090560).isSome = true :=
  ⟨by decide, (c10_decode_sign_total 9221120237041090560 (by decide)).2.1⟩
